import Mathlib

/-!
Verification development for the NHS medicines scraper
(`src/scraper.ts`, `src/types.ts`, `src/utils.ts`, `src/config.ts`).

The TypeScript source is shallowly embedded below: pure string processing
becomes functions over `List Char` / `String`, the mutable scrape state and
output store become explicit state passing, the `p-queue` scheduler becomes a
small-step transition relation, and fallible extraction/persistence become
`Option` results / `Bool` outcomes supplied as parameters.
-/

namespace NHSScraper

/-! ## String utilities

JavaScript string helpers used throughout the scraper:
`replace(/\s+/g, ' ')`, `trim()`, `split`, regexes over collapsed text.
We model strings as their character lists. -/

/-- The JS `\s` whitespace class restricted to its ASCII members, which are the
only whitespace characters relevant to the embedded string algorithms. -/
def isJsWhitespace (c : Char) : Bool :=
  c = ' ' || c = '\t' || c = '\n' || c = '\r' || c = '\x0b' || c = '\x0c'

/-- `replace(/\s+/g, ' ')`: each maximal whitespace run becomes a single space.
The boolean tracks whether the previous character was part of a run. -/
def collapseWsAux : List Char → Bool → List Char
  | [], _ => []
  | c :: rest, inRun =>
    if isJsWhitespace c then
      if inRun then collapseWsAux rest true
      else ' ' :: collapseWsAux rest true
    else c :: collapseWsAux rest false

def collapseWs (l : List Char) : List Char :=
  collapseWsAux l false

/-- JS `String.prototype.trim()` on a character list. -/
def trimWs (l : List Char) : List Char :=
  ((l.dropWhile isJsWhitespace).reverse.dropWhile isJsWhitespace).reverse

/-! ## Data model (`src/types.ts`) -/

structure ContentSection where
  heading : String
  paragraphs : List String
  bullets : List String
  deriving Repr, DecidableEq

structure RelatedCondition where
  label : String
  url : String
  deriving Repr, DecidableEq

structure UsefulResource where
  label : String
  url : String
  deriving Repr, DecidableEq

structure QuestionAnswer where
  question : String
  answer : String
  deriving Repr, DecidableEq

structure MedicineAbout where
  description : String
  keyFacts : List String
  usedFor : List String
  content : List ContentSection
  lastReviewed : Option String := none
  deriving Repr, DecidableEq

structure MedicineContentPage where
  content : List ContentSection
  lastReviewed : Option String := none
  deriving Repr, DecidableEq

structure MedicineCommonQuestions where
  questions : List QuestionAnswer
  lastReviewed : Option String := none
  deriving Repr, DecidableEq

/-- The `metadata` field of a `Medicine` (`scrapedAt` timestamp plus the fixed
`source` tag). -/
structure MedicineProvenance where
  scrapedAt : String
  source : String
  deriving Repr, DecidableEq

structure Medicine where
  name : String
  slug : String
  url : String
  brandNames : List String
  about : MedicineAbout
  dosage : Option MedicineContentPage := none
  sideEffects : Option MedicineContentPage := none
  pregnancy : Option MedicineContentPage := none
  interactions : Option MedicineContentPage := none
  commonQuestions : Option MedicineCommonQuestions := none
  relatedConditions : List RelatedCondition
  usefulResources : List UsefulResource
  metadata : MedicineProvenance
  deriving Repr, DecidableEq

structure MedicineTask where
  slug : String
  url : String
  deriving Repr, DecidableEq

structure ScrapeSummary where
  total : Nat
  succeeded : Nat
  failed : Nat
  skipped : Nat
  metadataPath : String
  deriving Repr, DecidableEq

structure OutputMetadataEntry where
  slug : String
  medicineName : String
  medicineFilePath : String
  deriving Repr, DecidableEq

/-- The mutable per-run counters of `scraper.ts` (`ScrapeState`). -/
structure ScrapeState where
  succeeded : Nat
  completed : Nat
  failed : Nat
  deriving Repr, DecidableEq

/-- The `OutputStore` of `src/utils.ts` together with the file system it
touches: `metadata` is the in-memory index list, `files` the set of artifact
paths currently present on disk (a list; membership is what matters).
`metadataWriteQueue` (concurrency 1) is modelled by the fact that all store
updates below are applied sequentially. -/
structure StoreState where
  outputDir : String
  metadata : List OutputMetadataEntry
  files : List String
  deriving Repr, DecidableEq

/-! ## Brand-name parsing (`scraper.ts` `parseBrandNames`) -/

/-- The separator regex `/\s+-\s+Other brand names:\s+/i`, lowercased.  The
input to the split is already whitespace-collapsed, so every `\s+` matches
exactly one space and an occurrence of the separator is exactly this 22
character string up to ASCII case. -/
def sepPattern : List Char := " - other brand names: ".data

def sepLen : Nat := sepPattern.length

/-- Does the separator match at the head of `l` (case-insensitively)? -/
def matchesSep (l : List Char) : Bool :=
  (l.take sepLen).map Char.toLower = sepPattern

/-- `String.prototype.split` against the separator regex: cut the character
list at every (leftmost, non-overlapping) occurrence of the separator.  The
recursion consumes at least one character per step; the `fuel` argument (a
bound on the number of steps, instantiated with the list length) makes the
recursion structural so that concrete inputs evaluate by kernel reduction.
The `fuel = 0` branch is unreachable when `fuel` bounds the length. -/
def splitSepAux : Nat → List Char → List Char → List (List Char)
  | _, [], acc => [acc.reverse]
  | 0, l, acc => [acc.reverse ++ l]
  | fuel + 1, c :: rest, acc =>
    if matchesSep (c :: rest) then
      acc.reverse :: splitSepAux fuel ((c :: rest).drop sepLen) []
    else
      splitSepAux fuel rest (c :: acc)

def splitSep (l : List Char) : List (List Char) :=
  splitSepAux l.length l []

/-- `String.prototype.split(/,|\//)`: cut at every comma or forward slash. -/
def splitCommaSlash : List Char → List (List Char)
  | [] => [[]]
  | c :: rest =>
    if c = ',' || c = '/' then
      [] :: splitCommaSlash rest
    else
      match splitCommaSlash rest with
      | [] => [[c]]
      | p :: ps => (c :: p) :: ps

/-- The brand pieces of one side of the split:
`side.split(/,|\//).map((item) => item.trim()).filter(Boolean)`. -/
def brandPieces (l : List Char) : List (List Char) :=
  ((splitCommaSlash l).map trimWs).filter (fun p => p ≠ [])

/-- The regex match `left.match(/^(.*?)\((.*?)\)$/)`.  With lazy groups the
match succeeds exactly when the string ends in `)` and contains `(` before it;
group 1 is the prefix before the first `(` and group 2 the text strictly
between that `(` and the final `)`. -/
def bracketSplit (l : List Char) : Option (List Char × List Char) :=
  if l.getLast? = some ')' && l.contains '(' then
    let rawName := l.takeWhile (fun c => c ≠ '(')
    some (rawName, l.dropLast.drop (rawName.length + 1))
  else
    none

/-- `[...new Set(list)]`: deduplicate keeping the first occurrence of each
element, in order. -/
def dedupFirst : List String → List String → List String
  | [], _ => []
  | x :: rest, seen =>
    if seen.contains x then dedupFirst rest seen
    else x :: dedupFirst rest (x :: seen)

/-- `parseBrandNames` (`scraper.ts` lines 716-745): collapse and trim the
title, split on the `" - Other brand names: "` pattern, comma/slash-split the
right side into brand names, strip a trailing parenthetical from the left side
into further brand names, and deduplicate. -/
def parseBrandNames (title : String) : String × List String :=
  let cleaned := trimWs (collapseWs title.data)
  let parts := splitSep cleaned
  let left := parts.headD cleaned
  let brands := match parts[1]? with
    | some right => (brandPieces right).map String.mk
    | none => []
  match bracketSplit left with
  | none => (String.mk left, dedupFirst brands [])
  | some (rawName, rawBracketBrands) =>
      let name := trimWs rawName
      let brands2 := brands ++ (brandPieces rawBracketBrands).map String.mk
      (String.mk name, dedupFirst brands2 [])

/-! ## Heading-delimited segmentation (`scraper.ts` `extractSections`)

The DOM inside `main` is modelled as the ordered list of sibling element
nodes the section walker visits: `h2`/`h3` headings, `p` paragraphs, `ul`/`ol`
lists (carrying the raw text of their `li` items), and any other element.
Node text is carried raw; the extractor applies the same
`replace(/\s+/g, ' ').trim()` normalisation as the source. -/

inductive DomNode where
  | heading (text : String)
  | para (text : String)
  | list (items : List String)
  | other
  deriving Repr, DecidableEq

/-- Normalised text: `textContent.replace(/\s+/g, ' ').trim()`. -/
def normText (s : String) : String :=
  String.mk (trimWs (collapseWs s.data))

/-- The sibling walk from just after a heading up to the next `h2`/`h3` (or
the end of content): paragraph texts (normalised, empties skipped) and list
item texts (normalised, empties filtered). -/
def collectBody : List DomNode → List String × List String
  | [] => ([], [])
  | DomNode.heading _ :: _ => ([], [])
  | DomNode.para t :: rest =>
    let (ps, bs) := collectBody rest
    let txt := normText t
    (if txt = "" then ps else txt :: ps, bs)
  | DomNode.list items :: rest =>
    let (ps, bs) := collectBody rest
    (ps, ((items.map normText).filter (fun s => s ≠ "")) ++ bs)
  | DomNode.other :: rest => collectBody rest

/-- `extractSections`: every `h2`/`h3` heading starts a section whose body is
the sibling walk up to the next heading; sections whose normalised heading
text is empty are dropped. -/
def extractSections : List DomNode → List ContentSection
  | [] => []
  | DomNode.heading t :: rest =>
    let (ps, bs) := collectBody rest
    let h := normText t
    if h = "" then extractSections rest
    else { heading := h, paragraphs := ps, bullets := bs } :: extractSections rest
  | _ :: rest => extractSections rest

/-! ## Artifact filenames and the output store
(`scraper.ts` `toMedicineFileName`, `persistMedicine`, `upsertMetadata`;
`utils.ts` `loadMetadata`) -/

/-- `name.replace(/[^a-zA-Z0-9]+/g, '-')`: each maximal run of non-ASCII
alphanumeric characters becomes a single dash. -/
def slugifyRuns : List Char → Bool → List Char
  | [], _ => []
  | c :: rest, inRun =>
    if c.isAlphanum then c :: slugifyRuns rest false
    else if inRun then slugifyRuns rest true
    else '-' :: slugifyRuns rest true

/-- `.replace(/^-+|-+$/g, '')`: strip leading and trailing dash runs. -/
def trimDashes (l : List Char) : List Char :=
  ((l.dropWhile (fun c => c = '-')).reverse.dropWhile (fun c => c = '-')).reverse

/-- The slugified display name (before the `|| medicine.slug` fallback). -/
def slugifiedName (name : String) : String :=
  String.mk (trimDashes (slugifyRuns name.data false))

/-- `toMedicineFileName`: the slugified display name, falling back to the
record's slug when it is empty (JS `||` on the empty string). -/
def toMedicineFileName (m : Medicine) : String :=
  if slugifiedName m.name = "" then m.slug else slugifiedName m.name

/-- The artifact file path `path.join(medicinesDir, name + '.json')` written
by `persistMedicine`, with `medicinesDir = outputDir/medicines`. -/
def artifactFilePath (outputDir : String) (m : Medicine) : String :=
  outputDir ++ "/" ++ ("medicines/" ++ (toMedicineFileName m ++ ".json"))

/-- The index path computed by `path.relative(outputDir, medicineFilePath)`
with separators normalised to `/`. -/
def relativeArtifactPath (m : Medicine) : String :=
  "medicines/" ++ (toMedicineFileName m ++ ".json")

/-- `upsertMetadata`: replace the first entry with the same slug in place,
otherwise append at the end (the `findIndex` / `metadata[i] = e` / `push`
sequence of the source). -/
def upsertMetadata (metadata : List OutputMetadataEntry)
    (slug medicineName medicineFilePath : String) : List OutputMetadataEntry :=
  match metadata with
  | [] => [⟨slug, medicineName, medicineFilePath⟩]
  | e :: rest =>
    if e.slug = slug then ⟨slug, medicineName, medicineFilePath⟩ :: rest
    else e :: upsertMetadata rest slug medicineName medicineFilePath

/-- `persistMedicine` as a state transformer on the store: write the artifact
file (the path becomes present on disk) and upsert the metadata index.  The
source runs this whole sequence on the concurrency-1 `metadataWriteQueue`;
sequential application models that serialization. -/
def persistMedicine (task : MedicineTask) (medicine : Medicine)
    (store : StoreState) : StoreState :=
  { store with
      files := artifactFilePath store.outputDir medicine :: store.files
      metadata := upsertMetadata store.metadata task.slug medicine.name
        (relativeArtifactPath medicine) }

/-- `path.basename(p, '.json')`: the last `/`-separated segment, minus a
trailing `.json` extension when present. -/
def baseNameNoJson (p : String) : String :=
  let base := ((p.data.reverse.takeWhile (fun c => c ≠ '/')).reverse)
  if base.reverse.take 5 = ".json".data.reverse then
    String.mk (base.take (base.length - 5))
  else
    String.mk base

/-- `loadMetadata` (`utils.ts`): entries parsed from `metadata.json`, with an
empty slug backfilled from the artifact filename (parse failures yield `[]`
upstream of this function and are modelled by passing the empty list). -/
def loadMetadata (items : List OutputMetadataEntry) : List OutputMetadataEntry :=
  items.map (fun item =>
    { item with
        slug := if item.slug = "" then baseNameNoJson item.medicineFilePath
                else item.slug })

/-! ## Selection, cache policy, retry, counters, pipeline
(`scraper.ts` `selectTasks`, `applyCachePolicy`, `getCachedSlugs`,
`retryScrapeMedicine`, `processMedicineTask`, `runTaskQueue`, `run`) -/

/-- `selectTasks`: apply the `--slug` filter (a JS-falsy, i.e. empty, slug
means no filtering) then the `--limit` truncation (`limit > 0` only). -/
def selectTasks (allMedicines : List MedicineTask) (targetSlug : Option String)
    (targetLimit : Int) : List MedicineTask :=
  let filtered := match targetSlug with
    | some s => if s = "" then allMedicines
                else allMedicines.filter (fun item => item.slug = s)
    | none => allMedicines
  if 0 < targetLimit then filtered.take targetLimit.toNat else filtered

/-- `getCachedSlugs`: the slugs of metadata entries whose referenced artifact
file (resolved against the output directory) exists on disk.  The check is
`fs.access` — pure existence, no content read. -/
def getCachedSlugs (store : StoreState) : List String :=
  (store.metadata.filter
    (fun item => store.files.contains (store.outputDir ++ "/" ++ item.medicineFilePath))).map
    (fun item => item.slug)

/-- The filter-with-counter loop inside `applyCachePolicy`: keep tasks whose
slug is not cached, counting the dropped ones. -/
def cacheFilterLoop (tasks : List MedicineTask) (cachedSlugs : List String) :
    List MedicineTask × Nat :=
  match tasks with
  | [] => ([], 0)
  | task :: rest =>
    let (keep, skipped) := cacheFilterLoop rest cachedSlugs
    if cachedSlugs.contains task.slug then (keep, skipped + 1)
    else (task :: keep, skipped)

/-- `applyCachePolicy`: on `hardRefresh` run everything with skip count 0;
otherwise drop (and count) the tasks whose slug is cached. -/
def applyCachePolicy (tasks : List MedicineTask) (store : StoreState)
    (hardRefresh : Bool) : List MedicineTask × Nat :=
  if hardRefresh then (tasks, 0)
  else cacheFilterLoop tasks (getCachedSlugs store)

/-- `p-retry` with `{retries, factor: 1, minTimeout = maxTimeout}`: run the
attempt; on failure retry while the budget lasts.  Returns the result and the
total number of attempts made.  `attempts k` is the outcome of the `k`-th
attempt (`none` = the attempt threw). -/
def pRetryModel (retries : Nat) (attempts : Nat → Option Medicine) (k : Nat) :
    Option Medicine × Nat :=
  match attempts k with
  | some m => (some m, 1)
  | none =>
    match retries with
    | 0 => (none, 1)
    | r + 1 =>
      let (res, n) := pRetryModel r attempts (k + 1)
      (res, n + 1)

/-- `retryScrapeMedicine`: `pRetry` with
`retries = Math.max(0, retryAttempts - 1)` (truncated subtraction on `Nat` is
exactly that; the config validates `retryAttempts` as a nonnegative integer),
starting at attempt number 1.  `minTimeout = maxTimeout = retryDelayMs`,
`factor = 1`, `randomize = false` make the delay between attempts fixed. -/
def retryScrapeMedicine (retryAttempts : Nat) (attempts : Nat → Option Medicine) :
    Option Medicine × Nat :=
  pRetryModel (retryAttempts - 1) attempts 1

/-- The delays `p-retry` sleeps between consecutive attempts under the
options above: one fixed `retryDelayMs` pause before each retry. -/
def retryDelaySchedule (retryAttempts retryDelayMs : Nat) : List Nat :=
  List.replicate (retryAttempts - 1) retryDelayMs

/-- `processMedicineTask`: the per-task body.  `extractResult` is what
`retryScrapeMedicine` returned (`none` = all attempts failed and the error
propagated); `persistOk` is whether `persistMedicine` succeeded.  On
extraction success `succeeded` is bumped before persisting; a throw from
either step bumps `failed`; `completed` is bumped in the `finally`. -/
def processMedicineTask (extractResult : Option Medicine) (persistOk : Bool)
    (task : MedicineTask) (st : ScrapeState) (store : StoreState) :
    ScrapeState × StoreState :=
  match extractResult with
  | some medicine =>
    let st1 : ScrapeState := { st with succeeded := st.succeeded + 1 }
    if persistOk then
      ({ st1 with completed := st1.completed + 1 },
        persistMedicine task medicine store)
    else
      ({ st1 with failed := st1.failed + 1, completed := st1.completed + 1 },
        store)
  | none =>
    ({ st with failed := st.failed + 1, completed := st.completed + 1 }, store)

/-- The task loop driven by the queue.  Store writes are serialized by the
`metadataWriteQueue`; the counters and the store are the only state the tasks
share, so the run is modelled as sequential processing (any completion order
gives the same counters, and store updates are totally ordered). -/
def runTasksFold (extract : MedicineTask → Option Medicine)
    (persistOk : MedicineTask → Bool) :
    List MedicineTask → ScrapeState → StoreState → ScrapeState × StoreState
  | [], st, store => (st, store)
  | task :: rest, st, store =>
    let (st1, store1) := processMedicineTask (extract task) (persistOk task) task st store
    runTasksFold extract persistOk rest st1 store1

/-- `NHSMedicinesScraper.run` after discovery: select, apply the cache
policy, run the queue, and assemble the summary.  Note `total` in the summary
is `totalQueued = tasksToRun.length` — the count AFTER cache skipping. -/
def runPipeline (allMedicines : List MedicineTask) (targetSlug : Option String)
    (targetLimit : Int) (hardRefresh : Bool)
    (extract : MedicineTask → Option Medicine)
    (persistOk : MedicineTask → Bool) (store : StoreState) :
    ScrapeSummary × StoreState :=
  let selected := selectTasks allMedicines targetSlug targetLimit
  let (tasksToRun, skipped) := applyCachePolicy selected store hardRefresh
  let totalQueued := tasksToRun.length
  let (st, finalStore) :=
    runTasksFold extract persistOk tasksToRun ⟨0, 0, 0⟩ store
  ({ total := totalQueued, succeeded := st.succeeded, failed := st.failed,
     skipped := skipped, metadataPath := store.outputDir ++ "/metadata.json" },
   finalStore)

/-- `resolveRunOptions`' parallelism resolution:
`Math.max(1, options.parallelTabs ?? appConfig.parallelTabs)`. -/
def resolvedParallelTabs (optionTabs : Option Nat) (configTabs : Nat) : Nat :=
  max 1 (optionTabs.getD configTabs)

/-- The `p-queue` concurrency chosen by `runTaskQueue`:
`Math.min(parallelTabs, Math.max(1, totalQueued))`. -/
def queueConcurrency (parallelTabs totalQueued : Nat) : Nat :=
  min parallelTabs (max 1 totalQueued)

/-! ## Scheduler model

Modelled from the spec: the `p-queue` library (an external dependency, not
part of this repository) runs queued task bodies with at most `concurrency`
of them in flight at once, and `onIdle` resolves only when the queue is empty
and no task is running.  A state counts pending, in-flight and terminal
tasks; a step either starts a pending task (only when the in-flight count is
below the limit) or finishes an in-flight one. -/

structure QueueState where
  pending : Nat
  running : Nat
  done : Nat
  deriving Repr, DecidableEq

inductive QueueStep (limit : Nat) : QueueState → QueueState → Prop
  | start {p r d : Nat} : r < limit →
      QueueStep limit ⟨p + 1, r, d⟩ ⟨p, r + 1, d⟩
  | finish {p r d : Nat} :
      QueueStep limit ⟨p, r + 1, d⟩ ⟨p, r, d + 1⟩

/-- States reachable by `runTaskQueue`'s queue after enqueueing `n` tasks. -/
def QueueReachable (limit n : Nat) (s : QueueState) : Prop :=
  Relation.ReflTransGen (QueueStep limit) ⟨n, 0, 0⟩ s

/-! ## Concrete fixtures for witnesses and counterexamples -/

def sampleAbout : MedicineAbout :=
  { description := "", keyFacts := [], usedFor := [], content := [] }

def sampleProvenance : MedicineProvenance :=
  { scrapedAt := "2024-01-01T00:00:00.000Z", source := "nhs" }

/-- A minimal extracted record with the given display name and slug. -/
def sampleMedicine (name slug : String) : Medicine :=
  { name := name, slug := slug,
    url := "https://www.nhs.uk/medicines/" ++ slug ++ "/",
    brandNames := [], about := sampleAbout,
    relatedConditions := [], usefulResources := [],
    metadata := sampleProvenance }

def sampleTask (slug : String) : MedicineTask :=
  { slug := slug, url := "https://www.nhs.uk/medicines/" ++ slug ++ "/" }

def emptyStore : StoreState :=
  { outputDir := "data", metadata := [], files := [] }

/-! ## Helper lemmas -/

theorem contains_iff_mem {l : List String} {s : String} :
    l.contains s = true ↔ s ∈ l :=
  List.elem_iff

theorem string_append_cancel_left {a b c : String} (h : a ++ b = a ++ c) :
    b = c := by
  apply String.ext
  have hd : (a ++ b).data = (a ++ c).data := by rw [h]
  rw [String.data_append, String.data_append] at hd
  exact List.append_cancel_left hd

theorem string_append_cancel_right {a b c : String} (h : a ++ c = b ++ c) :
    a = b := by
  apply String.ext
  have hd : (a ++ c).data = (b ++ c).data := by rw [h]
  rw [String.data_append, String.data_append] at hd
  exact List.append_cancel_right hd

/-! upsert lemmas -/

theorem upsert_mem_new (l : List OutputMetadataEntry) (slug n p : String) :
    (⟨slug, n, p⟩ : OutputMetadataEntry) ∈ upsertMetadata l slug n p := by
  induction l with
  | nil => simp [upsertMetadata]
  | cons e rest ih =>
    by_cases h : e.slug = slug
    · simp [upsertMetadata, h]
    · simp only [upsertMetadata, if_neg h]
      exact List.mem_cons_of_mem _ ih

theorem upsert_mem_other {l : List OutputMetadataEntry} {e : OutputMetadataEntry}
    (slug n p : String) (hmem : e ∈ l) (hne : e.slug ≠ slug) :
    e ∈ upsertMetadata l slug n p := by
  induction l with
  | nil => cases hmem
  | cons x rest ih =>
    by_cases h : x.slug = slug
    · simp only [upsertMetadata, if_pos h]
      rcases List.mem_cons.mp hmem with rfl | hmem2
      · exact absurd h hne
      · exact List.mem_cons_of_mem _ hmem2
    · simp only [upsertMetadata, if_neg h]
      rcases List.mem_cons.mp hmem with rfl | hmem2
      · exact List.mem_cons_self _ _
      · exact List.mem_cons_of_mem _ (ih hmem2)

theorem upsert_slug_mem {l : List OutputMetadataEntry} {e : OutputMetadataEntry}
    {slug n p : String} (hmem : e ∈ upsertMetadata l slug n p) :
    e.slug = slug ∨ e ∈ l := by
  induction l with
  | nil =>
    simp only [upsertMetadata, List.mem_singleton] at hmem
    subst hmem; exact Or.inl rfl
  | cons x rest ih =>
    by_cases h : x.slug = slug
    · simp only [upsertMetadata, if_pos h] at hmem
      rcases List.mem_cons.mp hmem with rfl | hmem2
      · exact Or.inl rfl
      · exact Or.inr (List.mem_cons_of_mem _ hmem2)
    · simp only [upsertMetadata, if_neg h] at hmem
      rcases List.mem_cons.mp hmem with rfl | hmem2
      · exact Or.inr (List.mem_cons_self _ _)
      · rcases ih hmem2 with h2 | h2
        · exact Or.inl h2
        · exact Or.inr (List.mem_cons_of_mem _ h2)

theorem upsert_filter_eq {l : List OutputMetadataEntry} (slug n p : String)
    (hnd : (l.map (fun e => e.slug)).Nodup) :
    (upsertMetadata l slug n p).filter (fun e => e.slug = slug) =
      [⟨slug, n, p⟩] := by
  induction l with
  | nil => simp [upsertMetadata]
  | cons e rest ih =>
    rw [List.map_cons, List.nodup_cons] at hnd
    obtain ⟨hnotin, hndrest⟩ := hnd
    by_cases h : e.slug = slug
    · simp only [upsertMetadata, if_pos h]
      have hrest : rest.filter (fun x => x.slug = slug) = [] := by
        rw [List.filter_eq_nil_iff]
        intro a ha
        simp only [decide_eq_true_eq]
        intro has
        refine hnotin ?_
        have hmm : a.slug ∈ List.map (fun e => e.slug) rest :=
          List.mem_map_of_mem _ ha
        rw [has] at hmm
        rw [h]
        exact hmm
      simp [hrest]
    · simp only [upsertMetadata, if_neg h]
      rw [List.filter_cons_of_neg (by simpa using h)]
      exact ih hndrest

theorem upsert_nodup {l : List OutputMetadataEntry} (slug n p : String)
    (hnd : (l.map (fun e => e.slug)).Nodup) :
    ((upsertMetadata l slug n p).map (fun e => e.slug)).Nodup := by
  induction l with
  | nil => simp [upsertMetadata]
  | cons e rest ih =>
    rw [List.map_cons, List.nodup_cons] at hnd
    obtain ⟨hnotin, hndrest⟩ := hnd
    by_cases h : e.slug = slug
    · simp only [upsertMetadata, if_pos h, List.map_cons, List.nodup_cons]
      exact ⟨by rw [← h]; exact hnotin, hndrest⟩
    · simp only [upsertMetadata, if_neg h, List.map_cons, List.nodup_cons]
      refine ⟨?_, ih hndrest⟩
      intro hm
      rcases List.mem_map.mp hm with ⟨x, hx, hxs⟩
      rcases upsert_slug_mem hx with h2 | h2
      · exact h (by rw [← hxs, h2])
      · exact hnotin (by rw [← hxs]; exact List.mem_map_of_mem _ h2)

theorem upsert_replace_in_place {l1 l2 : List OutputMetadataEntry}
    {e : OutputMetadataEntry} {slug : String} (n p : String)
    (he : e.slug = slug) (hl1 : ∀ x ∈ l1, x.slug ≠ slug) :
    upsertMetadata (l1 ++ e :: l2) slug n p = l1 ++ ⟨slug, n, p⟩ :: l2 := by
  induction l1 with
  | nil => simp [upsertMetadata, he]
  | cons x rest ih =>
    have hx : x.slug ≠ slug := hl1 x (List.mem_cons_self _ _)
    simp only [List.cons_append, upsertMetadata, if_neg hx, List.append_eq]
    rw [ih (fun y hy => hl1 y (List.mem_cons_of_mem _ hy))]

theorem upsert_append_of_absent {l : List OutputMetadataEntry} {slug : String}
    (n p : String) (habs : ∀ x ∈ l, x.slug ≠ slug) :
    upsertMetadata l slug n p = l ++ [⟨slug, n, p⟩] := by
  induction l with
  | nil => simp [upsertMetadata]
  | cons x rest ih =>
    have hx : x.slug ≠ slug := habs x (List.mem_cons_self _ _)
    simp only [upsertMetadata, if_neg hx, List.cons_append]
    rw [ih (fun y hy => habs y (List.mem_cons_of_mem _ hy))]

/-! cache-policy lemmas -/

theorem cacheFilterLoop_eq (tasks : List MedicineTask) (cached : List String) :
    cacheFilterLoop tasks cached =
      (tasks.filter (fun t => !(cached.contains t.slug)),
        tasks.countP (fun t => cached.contains t.slug)) := by
  induction tasks with
  | nil => rfl
  | cons t rest ih =>
    by_cases h : cached.contains t.slug
    · have hm : t.slug ∈ cached := contains_iff_mem.mp h
      simp [cacheFilterLoop, ih, List.countP_cons, List.filter_cons, h, hm]
    · have hm : t.slug ∉ cached := fun hx => h (contains_iff_mem.mpr hx)
      simp [cacheFilterLoop, ih, List.countP_cons, List.filter_cons, h, hm]

theorem cacheFilterLoop_all_cached {tasks : List MedicineTask}
    {cached : List String} (h : ∀ t ∈ tasks, cached.contains t.slug = true) :
    cacheFilterLoop tasks cached = ([], tasks.length) := by
  induction tasks with
  | nil => rfl
  | cons t rest ih =>
    simp only [cacheFilterLoop, ih (fun x hx => h x (List.mem_cons_of_mem _ hx)),
      if_pos (h t (List.mem_cons_self _ _))]
    simp

theorem cacheFilterLoop_mem_or_cached {tasks : List MedicineTask}
    {cached : List String} {t : MedicineTask} (hmem : t ∈ tasks) :
    t ∈ (cacheFilterLoop tasks cached).1 ∨ cached.contains t.slug = true := by
  induction tasks with
  | nil => cases hmem
  | cons x rest ih =>
    rcases List.mem_cons.mp hmem with rfl | hmem2
    · by_cases h : cached.contains t.slug
      · exact Or.inr h
      · left
        simp only [cacheFilterLoop, if_neg h]
        exact List.mem_cons_self _ _
    · rcases ih hmem2 with h2 | h2
      · by_cases h : cached.contains x.slug
        · left; simpa only [cacheFilterLoop, if_pos h] using h2
        · left
          simp only [cacheFilterLoop, if_neg h]
          exact List.mem_cons_of_mem _ h2
      · exact Or.inr h2

theorem mem_getCachedSlugs_iff {store : StoreState} {s : String} :
    s ∈ getCachedSlugs store ↔
      ∃ e, e ∈ store.metadata ∧ e.slug = s ∧
        store.files.contains (store.outputDir ++ "/" ++ e.medicineFilePath) = true := by
  unfold getCachedSlugs
  constructor
  · intro h
    rcases List.mem_map.mp h with ⟨e, he, hes⟩
    rcases List.mem_filter.mp he with ⟨hmem, hcond⟩
    exact ⟨e, hmem, hes, by simpa using hcond⟩
  · rintro ⟨e, hmem, hes, hcond⟩
    refine List.mem_map.mpr ⟨e, List.mem_filter.mpr ⟨hmem, by simpa using hcond⟩, hes⟩

/-! persist / cache preservation lemmas -/

theorem persist_outputDir (task : MedicineTask) (m : Medicine)
    (store : StoreState) :
    (persistMedicine task m store).outputDir = store.outputDir := rfl

theorem persist_caches (task : MedicineTask) (m : Medicine) (store : StoreState) :
    task.slug ∈ getCachedSlugs (persistMedicine task m store) := by
  rw [mem_getCachedSlugs_iff]
  refine ⟨⟨task.slug, m.name, relativeArtifactPath m⟩, ?_, rfl, ?_⟩
  · exact upsert_mem_new store.metadata task.slug m.name (relativeArtifactPath m)
  · show (artifactFilePath store.outputDir m :: store.files).contains
      (store.outputDir ++ "/" ++ relativeArtifactPath m) = true
    have hpath : store.outputDir ++ "/" ++ relativeArtifactPath m =
        artifactFilePath store.outputDir m := rfl
    rw [hpath, contains_iff_mem]
    exact List.mem_cons_self _ _

theorem persist_preserves_cached {store : StoreState} {s : String}
    (task : MedicineTask) (m : Medicine) (h : s ∈ getCachedSlugs store) :
    s ∈ getCachedSlugs (persistMedicine task m store) := by
  rcases mem_getCachedSlugs_iff.mp h with ⟨e, hmem, hes, hcond⟩
  by_cases hslug : e.slug = task.slug
  · rw [← hes, hslug]
    exact persist_caches task m store
  · rw [mem_getCachedSlugs_iff]
    refine ⟨e, ?_, hes, ?_⟩
    · exact upsert_mem_other task.slug m.name (relativeArtifactPath m) hmem hslug
    · show (artifactFilePath store.outputDir m :: store.files).contains
        (store.outputDir ++ "/" ++ e.medicineFilePath) = true
      rw [contains_iff_mem]
      exact List.mem_cons_of_mem _ (contains_iff_mem.mp hcond)

theorem process_preserves_cached {store : StoreState} {s : String}
    (extractResult : Option Medicine) (persistOk : Bool) (task : MedicineTask)
    (st : ScrapeState) (h : s ∈ getCachedSlugs store) :
    s ∈ getCachedSlugs (processMedicineTask extractResult persistOk task st store).2 := by
  cases extractResult with
  | none => exact h
  | some m =>
    by_cases hp : persistOk
    · simp only [processMedicineTask, if_pos hp]
      exact persist_preserves_cached task m h
    · simpa only [processMedicineTask, if_neg hp] using h

theorem fold_preserves_cached {s : String}
    (extract : MedicineTask → Option Medicine) (persistOk : MedicineTask → Bool)
    (tasks : List MedicineTask) (st : ScrapeState) (store : StoreState)
    (h : s ∈ getCachedSlugs store) :
    s ∈ getCachedSlugs (runTasksFold extract persistOk tasks st store).2 := by
  induction tasks generalizing st store with
  | nil => exact h
  | cons t rest ih =>
    simp only [runTasksFold]
    exact ih _ _ (process_preserves_cached (extract t) (persistOk t) t st h)

theorem fold_achieves_cached
    (extract : MedicineTask → Option Medicine) (persistOk : MedicineTask → Bool)
    (tasks : List MedicineTask) (st : ScrapeState) (store : StoreState)
    (hok : ∀ t ∈ tasks, (extract t).isSome ∧ persistOk t = true) :
    ∀ t ∈ tasks, t.slug ∈ getCachedSlugs (runTasksFold extract persistOk tasks st store).2 := by
  induction tasks generalizing st store with
  | nil => intro t ht; cases ht
  | cons x rest ih =>
    intro t ht
    rcases List.mem_cons.mp ht with rfl | ht2
    · obtain ⟨hsome, hpok⟩ := hok t (List.mem_cons_self _ _)
      rcases Option.isSome_iff_exists.mp hsome with ⟨m, hm⟩
      simp only [runTasksFold]
      apply fold_preserves_cached
      rw [hm, hpok]
      simp only [processMedicineTask, if_pos rfl]
      exact persist_caches t m store
    · simp only [runTasksFold]
      exact ih _ _ (fun y hy => hok y (List.mem_cons_of_mem _ hy)) t ht2

/-! retry lemma -/

theorem pRetryModel_all_fail {attempts : Nat → Option Medicine}
    (hfail : ∀ k, attempts k = none) (retries : Nat) :
    ∀ k, pRetryModel retries attempts k = (none, retries + 1) := by
  induction retries with
  | zero => intro k; simp [pRetryModel, hfail]
  | succ r ih => intro k; simp [pRetryModel, hfail, ih (k + 1)]

/-! dedup lemma -/

theorem dedupFirst_nodup_aux (l : List String) :
    ∀ seen, (dedupFirst l seen).Nodup ∧
      ∀ x ∈ dedupFirst l seen, seen.contains x = false := by
  induction l with
  | nil => intro seen; exact ⟨List.nodup_nil, fun x hx => absurd hx (List.not_mem_nil x)⟩
  | cons a rest ih =>
    intro seen
    by_cases h : seen.contains a
    · simp only [dedupFirst, if_pos h]
      exact ih seen
    · simp only [dedupFirst, if_neg h]
      obtain ⟨hnd, hout⟩ := ih (a :: seen)
      constructor
      · rw [List.nodup_cons]
        refine ⟨?_, hnd⟩
        intro hmem
        have := hout a hmem
        rw [Bool.eq_false_iff] at this
        exact this (contains_iff_mem.mpr (List.mem_cons_self _ _))
      · intro x hx
        rcases List.mem_cons.mp hx with rfl | hx2
        · exact Bool.eq_false_iff.mpr h
        · have := hout x hx2
          rw [Bool.eq_false_iff] at this ⊢
          intro hc
          exact this (contains_iff_mem.mpr
            (List.mem_cons_of_mem _ (contains_iff_mem.mp hc)))

theorem parseBrandNames_nodup (title : String) :
    (parseBrandNames title).2.Nodup := by
  unfold parseBrandNames
  dsimp only
  split
  · exact (dedupFirst_nodup_aux _ []).1
  · exact (dedupFirst_nodup_aux _ []).1

/-! segmentation lemma -/

theorem extractSections_headings_nonempty (doc : List DomNode) :
    ∀ s ∈ extractSections doc, s.heading ≠ "" := by
  induction doc with
  | nil => intro s hs; cases hs
  | cons node rest ih =>
    intro s hs
    cases node with
    | heading t =>
      by_cases h : normText t = ""
      · simp only [extractSections, if_pos h] at hs
        exact ih s hs
      · simp only [extractSections, if_neg h] at hs
        rcases List.mem_cons.mp hs with rfl | hs2
        · exact h
        · exact ih s hs2
    | para t => exact ih s hs
    | list items => exact ih s hs
    | other => exact ih s hs

/-! selection lemma -/

theorem filter_slug_length_le_one {tasks : List MedicineTask} {s : String}
    (hnd : (tasks.map (fun t => t.slug)).Nodup) :
    (tasks.filter (fun t => t.slug = s)).length ≤ 1 := by
  induction tasks with
  | nil => simp
  | cons t rest ih =>
    rw [List.map_cons, List.nodup_cons] at hnd
    obtain ⟨hnotin, hndrest⟩ := hnd
    by_cases h : t.slug = s
    · rw [List.filter_cons_of_pos (by simpa using h)]
      have hrest : rest.filter (fun x => x.slug = s) = [] := by
        rw [List.filter_eq_nil_iff]
        intro a ha
        simp only [decide_eq_true_eq]
        intro has
        refine hnotin ?_
        have hmm : a.slug ∈ List.map (fun t => t.slug) rest :=
          List.mem_map_of_mem _ ha
        rw [has] at hmm
        rw [h]
        exact hmm
      simp [hrest]
    · rw [List.filter_cons_of_neg (by simpa using h)]
      exact ih hndrest

/-! pipeline characterization and cache-stability lemmas -/

theorem runPipeline_def (allMedicines : List MedicineTask)
    (targetSlug : Option String) (targetLimit : Int) (hardRefresh : Bool)
    (extract : MedicineTask → Option Medicine) (persistOk : MedicineTask → Bool)
    (store : StoreState) :
    runPipeline allMedicines targetSlug targetLimit hardRefresh extract persistOk store =
      ({ total := (applyCachePolicy (selectTasks allMedicines targetSlug targetLimit)
            store hardRefresh).1.length,
         succeeded := (runTasksFold extract persistOk
            (applyCachePolicy (selectTasks allMedicines targetSlug targetLimit)
              store hardRefresh).1 ⟨0, 0, 0⟩ store).1.succeeded,
         failed := (runTasksFold extract persistOk
            (applyCachePolicy (selectTasks allMedicines targetSlug targetLimit)
              store hardRefresh).1 ⟨0, 0, 0⟩ store).1.failed,
         skipped := (applyCachePolicy (selectTasks allMedicines targetSlug targetLimit)
            store hardRefresh).2,
         metadataPath := store.outputDir ++ "/metadata.json" },
       (runTasksFold extract persistOk
          (applyCachePolicy (selectTasks allMedicines targetSlug targetLimit)
            store hardRefresh).1 ⟨0, 0, 0⟩ store).2) := rfl

theorem pipeline_all_selected_cached (allMedicines : List MedicineTask)
    (targetSlug : Option String) (targetLimit : Int) (hardRefresh : Bool)
    (extract : MedicineTask → Option Medicine) (persistOk : MedicineTask → Bool)
    (store0 : StoreState)
    (hok : ∀ t ∈ selectTasks allMedicines targetSlug targetLimit,
      (extract t).isSome ∧ persistOk t = true) :
    ∀ t ∈ selectTasks allMedicines targetSlug targetLimit,
      t.slug ∈ getCachedSlugs
        (runPipeline allMedicines targetSlug targetLimit hardRefresh
          extract persistOk store0).2 := by
  intro t ht
  rw [runPipeline_def]
  by_cases hhr : hardRefresh
  · have hrun : (applyCachePolicy (selectTasks allMedicines targetSlug targetLimit)
        store0 hardRefresh).1 = selectTasks allMedicines targetSlug targetLimit := by
      simp [applyCachePolicy, hhr]
    rw [hrun]
    exact fold_achieves_cached extract persistOk _ _ store0 hok t ht
  · have hrun : applyCachePolicy (selectTasks allMedicines targetSlug targetLimit)
        store0 hardRefresh =
        cacheFilterLoop (selectTasks allMedicines targetSlug targetLimit)
          (getCachedSlugs store0) := by
      simp [applyCachePolicy, hhr]
    rw [hrun]
    rcases @cacheFilterLoop_mem_or_cached
        (selectTasks allMedicines targetSlug targetLimit)
        (getCachedSlugs store0) t ht with hmem | hcache
    · have hsub : ∀ x ∈ (cacheFilterLoop (selectTasks allMedicines targetSlug targetLimit)
          (getCachedSlugs store0)).1, (extract x).isSome ∧ persistOk x = true := by
        intro x hx
        rw [cacheFilterLoop_eq] at hx
        exact hok x (List.mem_filter.mp hx).1
      exact fold_achieves_cached extract persistOk _ _ store0 hsub t hmem
    · exact fold_preserves_cached extract persistOk _ _ store0
        (contains_iff_mem.mp hcache)

/-! queue invariant lemma -/

theorem queue_reachable_invariant {limit n : Nat} {s : QueueState}
    (h : QueueReachable limit n s) :
    s.running ≤ limit ∧ s.pending + s.running + s.done = n := by
  induction h with
  | refl => exact ⟨Nat.zero_le _, by simp⟩
  | tail hsteps hstep ih =>
    obtain ⟨hr, hsum⟩ := ih
    cases hstep with
    | start hlt =>
      simp only at hr hsum ⊢
      omega
    | finish =>
      simp only at hr hsum ⊢
      omega

/-! ## Claim theorems -/

/-- C1 (counterexample): the claim "the second run yields a summary with
`skipped == total`" is false as stated.  With one task, first run fully
successful, the second run against the unchanged store reports `skipped = 1`
but `total = 0`, because the summary's `total` is `totalQueued`, the number of
tasks remaining AFTER cache skipping. -/
theorem c1_skipped_ne_total_counterexample :
    ((runPipeline [sampleTask "a"] none 0 false
        (fun _ => some (sampleMedicine "A" "a")) (fun _ => true)
        ((runPipeline [sampleTask "a"] none 0 false
          (fun _ => some (sampleMedicine "A" "a")) (fun _ => true)
          emptyStore).2)).1.skipped = 1)
    ∧ ((runPipeline [sampleTask "a"] none 0 false
        (fun _ => some (sampleMedicine "A" "a")) (fun _ => true)
        ((runPipeline [sampleTask "a"] none 0 false
          (fun _ => some (sampleMedicine "A" "a")) (fun _ => true)
          emptyStore).2)).1.total = 0)
    ∧ ¬((runPipeline [sampleTask "a"] none 0 false
        (fun _ => some (sampleMedicine "A" "a")) (fun _ => true)
        ((runPipeline [sampleTask "a"] none 0 false
          (fun _ => some (sampleMedicine "A" "a")) (fun _ => true)
          emptyStore).2)).1.skipped =
      (runPipeline [sampleTask "a"] none 0 false
        (fun _ => some (sampleMedicine "A" "a")) (fun _ => true)
        ((runPipeline [sampleTask "a"] none 0 false
          (fun _ => some (sampleMedicine "A" "a")) (fun _ => true)
          emptyStore).2)).1.total) := by
  refine ⟨by decide, by decide, by decide⟩

/-- C1 (amended): a second run with `hardRefresh = false` against an
unchanged source, after a first run in which every selected task extracted
and persisted successfully, yields `total = 0` (the summary's `total` counts
only the tasks queued after cache skipping), `skipped` equal to the number of
selected tasks, no successes or failures, and leaves the store — metadata
index included — unchanged. -/
theorem c1_idempotent_rerun (allMedicines : List MedicineTask)
    (targetSlug : Option String) (targetLimit : Int) (hardRefresh : Bool)
    (extract : MedicineTask → Option Medicine) (persistOk : MedicineTask → Bool)
    (store0 : StoreState)
    (hok : ∀ t ∈ selectTasks allMedicines targetSlug targetLimit,
      (extract t).isSome ∧ persistOk t = true) :
    (runPipeline allMedicines targetSlug targetLimit false extract persistOk
        (runPipeline allMedicines targetSlug targetLimit hardRefresh
          extract persistOk store0).2).1.total = 0
    ∧ (runPipeline allMedicines targetSlug targetLimit false extract persistOk
        (runPipeline allMedicines targetSlug targetLimit hardRefresh
          extract persistOk store0).2).1.skipped =
      (selectTasks allMedicines targetSlug targetLimit).length
    ∧ (runPipeline allMedicines targetSlug targetLimit false extract persistOk
        (runPipeline allMedicines targetSlug targetLimit hardRefresh
          extract persistOk store0).2).1.succeeded = 0
    ∧ (runPipeline allMedicines targetSlug targetLimit false extract persistOk
        (runPipeline allMedicines targetSlug targetLimit hardRefresh
          extract persistOk store0).2).1.failed = 0
    ∧ (runPipeline allMedicines targetSlug targetLimit false extract persistOk
        (runPipeline allMedicines targetSlug targetLimit hardRefresh
          extract persistOk store0).2).2 =
      (runPipeline allMedicines targetSlug targetLimit hardRefresh
        extract persistOk store0).2 := by
  have hcached := pipeline_all_selected_cached allMedicines targetSlug targetLimit
    hardRefresh extract persistOk store0 hok
  have happly : applyCachePolicy (selectTasks allMedicines targetSlug targetLimit)
      (runPipeline allMedicines targetSlug targetLimit hardRefresh
        extract persistOk store0).2 false =
      ([], (selectTasks allMedicines targetSlug targetLimit).length) := by
    show cacheFilterLoop _ _ = _
    exact cacheFilterLoop_all_cached
      (fun t ht => contains_iff_mem.mpr (hcached t ht))
  rw [runPipeline_def allMedicines targetSlug targetLimit false, happly]
  simp [runTasksFold]

/-- C2 (counterexample): artifact paths are NOT task-unique in general — two
distinct tasks whose records share the display name `"X"` derive the same
artifact file path, and persisting them writes the same file. -/
theorem c2_path_collision_counterexample :
    sampleTask "a" ≠ sampleTask "b"
    ∧ artifactFilePath "data" (sampleMedicine "X" "a")
      = artifactFilePath "data" (sampleMedicine "X" "b")
    ∧ (persistMedicine (sampleTask "a") (sampleMedicine "X" "a") emptyStore).files
      = (persistMedicine (sampleTask "b") (sampleMedicine "X" "b") emptyStore).files := by
  refine ⟨by decide, by decide, by decide⟩

/-- C2 (amended): the artifact filename is the slugified display name, with
the task slug as fallback when it is empty.  Distinct artifact paths are
guaranteed when the two slugified display names are non-empty and distinct,
or when both are empty and the task slugs are distinct; equal non-empty
slugified display names collide even for distinct tasks. -/
theorem c2_artifact_path_uniqueness (outputDir : String) (m1 m2 : Medicine) :
    (slugifiedName m1.name ≠ "" → toMedicineFileName m1 = slugifiedName m1.name)
    ∧ (slugifiedName m1.name = "" → toMedicineFileName m1 = m1.slug)
    ∧ (slugifiedName m1.name ≠ "" → slugifiedName m2.name ≠ "" →
        slugifiedName m1.name ≠ slugifiedName m2.name →
        artifactFilePath outputDir m1 ≠ artifactFilePath outputDir m2)
    ∧ (slugifiedName m1.name = "" → slugifiedName m2.name = "" →
        m1.slug ≠ m2.slug →
        artifactFilePath outputDir m1 ≠ artifactFilePath outputDir m2) := by
  have hfn : ∀ m : Medicine, artifactFilePath outputDir m =
      (outputDir ++ "/") ++ ("medicines/" ++ (toMedicineFileName m ++ ".json")) := by
    intro m
    simp [artifactFilePath, String.append_assoc]
  have hinj : artifactFilePath outputDir m1 = artifactFilePath outputDir m2 →
      toMedicineFileName m1 = toMedicineFileName m2 := by
    intro h
    rw [hfn m1, hfn m2] at h
    have h2 := string_append_cancel_left h
    have h3 := string_append_cancel_left h2
    exact string_append_cancel_right h3
  refine ⟨?_, ?_, ?_, ?_⟩
  · intro h1; simp [toMedicineFileName, h1]
  · intro h1; simp [toMedicineFileName, h1]
  · intro h1 h2 hne heq
    have := hinj heq
    rw [toMedicineFileName, toMedicineFileName, if_neg h1, if_neg h2] at this
    exact hne this
  · intro h1 h2 hne heq
    have := hinj heq
    rw [toMedicineFileName, toMedicineFileName, if_pos h1, if_pos h2] at this
    exact hne this

/-- C2 (witness): the amended uniqueness theorem at a concrete input —
records named `"X"` and `"Y"` on distinct tasks get distinct artifact
paths. -/
theorem c2_artifact_path_uniqueness_witness :
    slugifiedName (sampleMedicine "X" "a").name ≠ ""
    ∧ slugifiedName (sampleMedicine "Y" "b").name ≠ ""
    ∧ slugifiedName (sampleMedicine "X" "a").name
      ≠ slugifiedName (sampleMedicine "Y" "b").name
    ∧ artifactFilePath "data" (sampleMedicine "X" "a")
      ≠ artifactFilePath "data" (sampleMedicine "Y" "b") :=
  ⟨by decide, by decide, by decide,
    (c2_artifact_path_uniqueness "data" (sampleMedicine "X" "a")
      (sampleMedicine "Y" "b")).2.2.1 (by decide) (by decide) (by decide)⟩

/-- C1 (witness): the amended re-run theorem at a concrete input — one task,
successful extraction and persistence, empty initial store. -/
theorem c1_idempotent_rerun_witness :
    (∀ t ∈ selectTasks [sampleTask "a"] none 0,
      ((fun (_ : MedicineTask) => some (sampleMedicine "A" "a")) t).isSome ∧
      ((fun (_ : MedicineTask) => true) t) = true)
    ∧ ((runPipeline [sampleTask "a"] none 0 false
          (fun _ => some (sampleMedicine "A" "a")) (fun _ => true)
          ((runPipeline [sampleTask "a"] none 0 false
            (fun _ => some (sampleMedicine "A" "a")) (fun _ => true)
            emptyStore).2)).1.total = 0
      ∧ (runPipeline [sampleTask "a"] none 0 false
          (fun _ => some (sampleMedicine "A" "a")) (fun _ => true)
          ((runPipeline [sampleTask "a"] none 0 false
            (fun _ => some (sampleMedicine "A" "a")) (fun _ => true)
            emptyStore).2)).1.skipped =
        (selectTasks [sampleTask "a"] none 0).length
      ∧ (runPipeline [sampleTask "a"] none 0 false
          (fun _ => some (sampleMedicine "A" "a")) (fun _ => true)
          ((runPipeline [sampleTask "a"] none 0 false
            (fun _ => some (sampleMedicine "A" "a")) (fun _ => true)
            emptyStore).2)).1.succeeded = 0
      ∧ (runPipeline [sampleTask "a"] none 0 false
          (fun _ => some (sampleMedicine "A" "a")) (fun _ => true)
          ((runPipeline [sampleTask "a"] none 0 false
            (fun _ => some (sampleMedicine "A" "a")) (fun _ => true)
            emptyStore).2)).1.failed = 0
      ∧ (runPipeline [sampleTask "a"] none 0 false
          (fun _ => some (sampleMedicine "A" "a")) (fun _ => true)
          ((runPipeline [sampleTask "a"] none 0 false
            (fun _ => some (sampleMedicine "A" "a")) (fun _ => true)
            emptyStore).2)).2 =
        (runPipeline [sampleTask "a"] none 0 false
          (fun _ => some (sampleMedicine "A" "a")) (fun _ => true)
          emptyStore).2) :=
  ⟨by decide,
    c1_idempotent_rerun [sampleTask "a"] none 0 false
      (fun _ => some (sampleMedicine "A" "a")) (fun _ => true) emptyStore
      (by decide)⟩

/-- C3 (counterexample): with `retryAttempts = 0` (the configuration accepts
any nonnegative integer) an always-failing task is still attempted once, not
zero times, so "attempted exactly `retryAttempts` times" fails as stated. -/
theorem c3_zero_attempts_counterexample :
    (retryScrapeMedicine 0 (fun _ => none)).2 = 1 ∧ (1 : Nat) ≠ 0 := by
  refine ⟨by decide, by decide⟩

/-- C3 (amended): a task whose single-attempt extraction always fails is
attempted exactly `max 1 retryAttempts` times in total (`retryAttempts - 1`
truncated retries, each preceded by the same fixed `retryDelayMs` delay),
returns no record, is counted as failed with `completed` bumped once, and
never touches the store (no artifact is persisted). -/
theorem c3_retry_budget_exhaustion (retryAttempts : Nat)
    (attempts : Nat → Option Medicine) (hfail : ∀ k, attempts k = none)
    (task : MedicineTask) (st : ScrapeState) (store : StoreState) (d : Nat) :
    retryScrapeMedicine retryAttempts attempts = (none, max 1 retryAttempts)
    ∧ (∀ b : Bool, processMedicineTask none b task st store =
        ({ succeeded := st.succeeded, completed := st.completed + 1,
           failed := st.failed + 1 }, store))
    ∧ (retryDelaySchedule retryAttempts d).length = retryAttempts - 1
    ∧ (retryDelaySchedule retryAttempts d).all (fun x => x = d) = true := by
  refine ⟨?_, fun b => rfl, by simp [retryDelaySchedule], ?_⟩
  · unfold retryScrapeMedicine
    rw [pRetryModel_all_fail hfail]
    have : retryAttempts - 1 + 1 = max 1 retryAttempts := by omega
    rw [this]
  · simp only [retryDelaySchedule, List.all_eq_true]
    intro x hx
    simp only [List.eq_of_mem_replicate hx, decide_True]

/-- C3 (witness): the amended retry theorem at a concrete input —
`retryAttempts = 3`, an extraction that fails on every attempt. -/
theorem c3_retry_budget_exhaustion_witness :
    (∀ k : Nat, (fun (_ : Nat) => (none : Option Medicine)) k = none)
    ∧ (retryScrapeMedicine 3 (fun _ => none) = (none, max 1 3)
      ∧ (∀ b : Bool, processMedicineTask none b (sampleTask "a") ⟨0, 0, 0⟩ emptyStore =
          ({ succeeded := 0, completed := 0 + 1, failed := 0 + 1 }, emptyStore))
      ∧ (retryDelaySchedule 3 750).length = 3 - 1
      ∧ (retryDelaySchedule 3 750).all (fun x => x = 750) = true) :=
  ⟨fun _ => rfl,
    c3_retry_budget_exhaustion 3 (fun _ => none) (fun _ => rfl)
      (sampleTask "a") ⟨0, 0, 0⟩ emptyStore 750⟩

/-- C4: the scheduler's concurrency limit is
`min parallelTabs (max 1 totalQueued)`; in every reachable queue state the
number of in-flight tasks is bounded by `min p (max 1 n)`, the task counts
always sum to `n`, and when the queue is idle (nothing pending or running)
all `n` submitted tasks have reached a terminal state.  The resolved
parallelism is always at least 1. -/
theorem c4_bounded_concurrency (p n : Nat) (s : QueueState)
    (h : QueueReachable (queueConcurrency p n) n s) :
    s.running ≤ min p (max 1 n)
    ∧ s.pending + s.running + s.done = n
    ∧ (s.pending = 0 → s.running = 0 → s.done = n)
    ∧ (∀ ot ct, 1 ≤ resolvedParallelTabs ot ct) := by
  obtain ⟨hr, hsum⟩ := queue_reachable_invariant h
  refine ⟨hr, hsum, fun h1 h2 => by omega, fun ot ct => Nat.le_max_left 1 _⟩

/-- C4 (witness): the bounded-concurrency theorem at a concrete input — the
initial state of a queue with 2 tasks and parallelism 3 is reachable. -/
theorem c4_bounded_concurrency_witness :
    QueueReachable (queueConcurrency 3 2) 2 ⟨2, 0, 0⟩
    ∧ ((⟨2, 0, 0⟩ : QueueState).running ≤ min 3 (max 1 2)
      ∧ (⟨2, 0, 0⟩ : QueueState).pending + (⟨2, 0, 0⟩ : QueueState).running +
          (⟨2, 0, 0⟩ : QueueState).done = 2
      ∧ ((⟨2, 0, 0⟩ : QueueState).pending = 0 →
          (⟨2, 0, 0⟩ : QueueState).running = 0 →
          (⟨2, 0, 0⟩ : QueueState).done = 2)
      ∧ (∀ ot ct, 1 ≤ resolvedParallelTabs ot ct)) :=
  ⟨Relation.ReflTransGen.refl,
    c4_bounded_concurrency 3 2 ⟨2, 0, 0⟩ Relation.ReflTransGen.refl⟩

/-- C5: upserting into a slug-unique metadata index leaves exactly one entry
for the persisted slug — the new entry, carrying the derived relative file
path; slug-uniqueness is preserved; an existing slug is replaced in place
(position preserved) and a new slug appends at the end; and `persistMedicine`
performs exactly this upsert with the record's derived filename. -/
theorem c5_upsert_invariant (metadata : List OutputMetadataEntry)
    (slug medicineName filePath : String)
    (hnd : (metadata.map (fun e => e.slug)).Nodup) :
    (upsertMetadata metadata slug medicineName filePath).filter
        (fun e => e.slug = slug) = [⟨slug, medicineName, filePath⟩]
    ∧ ((upsertMetadata metadata slug medicineName filePath).map
        (fun e => e.slug)).Nodup
    ∧ (∀ l1 (e : OutputMetadataEntry) l2, metadata = l1 ++ e :: l2 →
        e.slug = slug → (∀ x ∈ l1, x.slug ≠ slug) →
        upsertMetadata metadata slug medicineName filePath =
          l1 ++ ⟨slug, medicineName, filePath⟩ :: l2)
    ∧ ((∀ x ∈ metadata, x.slug ≠ slug) →
        upsertMetadata metadata slug medicineName filePath =
          metadata ++ [⟨slug, medicineName, filePath⟩])
    ∧ (∀ (task : MedicineTask) (m : Medicine) (store : StoreState),
        (persistMedicine task m store).metadata =
          upsertMetadata store.metadata task.slug m.name
            (relativeArtifactPath m)) := by
  refine ⟨upsert_filter_eq slug medicineName filePath hnd,
    upsert_nodup slug medicineName filePath hnd, ?_, ?_, fun _ _ _ => rfl⟩
  · intro l1 e l2 hsplit he hl1
    rw [hsplit]
    exact upsert_replace_in_place medicineName filePath he hl1
  · intro habs
    exact upsert_append_of_absent medicineName filePath habs

/-- C5 (witness): the upsert-invariant theorem at a concrete index with two
entries, upserting an existing slug. -/
theorem c5_upsert_invariant_witness :
    (([⟨"a", "A", "medicines/A.json"⟩, ⟨"b", "B", "medicines/B.json"⟩] :
        List OutputMetadataEntry).map (fun e => e.slug)).Nodup
    ∧ (upsertMetadata [⟨"a", "A", "medicines/A.json"⟩,
          ⟨"b", "B", "medicines/B.json"⟩] "b" "B2" "medicines/B2.json").filter
        (fun e => e.slug = "b") = [⟨"b", "B2", "medicines/B2.json"⟩] :=
  ⟨by decide,
    (c5_upsert_invariant [⟨"a", "A", "medicines/A.json"⟩,
      ⟨"b", "B", "medicines/B.json"⟩] "b" "B2" "medicines/B2.json"
      (by decide)).1⟩

/-- C6: with `hardRefresh = true` the cache policy returns all tasks and skip
count 0; otherwise exactly the tasks whose slug is cached are removed and
counted as skipped and the rest run; and a slug is cached exactly when some
metadata entry carries it and that entry's referenced artifact file exists on
disk — a pure existence check, no content comparison. -/
theorem c6_cache_policy (tasks : List MedicineTask) (store : StoreState) :
    applyCachePolicy tasks store true = (tasks, 0)
    ∧ applyCachePolicy tasks store false =
        (tasks.filter (fun t => !((getCachedSlugs store).contains t.slug)),
         tasks.countP (fun t => (getCachedSlugs store).contains t.slug))
    ∧ ∀ s : String, s ∈ getCachedSlugs store ↔
        ∃ e, e ∈ store.metadata ∧ e.slug = s ∧
          store.files.contains
            (store.outputDir ++ "/" ++ e.medicineFilePath) = true := by
  refine ⟨rfl, ?_, fun s => mem_getCachedSlugs_iff⟩
  exact cacheFilterLoop_eq tasks (getCachedSlugs store)

/-- C7: selection with a (non-empty) slug filter keeps exactly the tasks
whose slug equals the filter — at most one when discovered slugs are unique;
without a filter all tasks pass; a positive limit truncates to the first
`limit` items while `limit ≤ 0` is unbounded; and the output is always a
sublist of the input, preserving discovery order. -/
theorem c7_selection (tasks : List MedicineTask) (s : String) (limit : Int)
    (hnd : (tasks.map (fun t => t.slug)).Nodup) (hs : s ≠ "") :
    selectTasks tasks none limit =
      (if 0 < limit then tasks.take limit.toNat else tasks)
    ∧ selectTasks tasks (some s) limit =
      (if 0 < limit then (tasks.filter (fun t => t.slug = s)).take limit.toNat
       else tasks.filter (fun t => t.slug = s))
    ∧ (tasks.filter (fun t => t.slug = s)).length ≤ 1
    ∧ (∀ os : Option String, (selectTasks tasks os limit).Sublist tasks) := by
  refine ⟨rfl, ?_, filter_slug_length_le_one hnd, ?_⟩
  · simp only [selectTasks, if_neg hs]
  · intro os
    have hsub : ∀ filtered : List MedicineTask, filtered.Sublist tasks →
        (if 0 < limit then filtered.take limit.toNat else filtered).Sublist tasks := by
      intro filtered hf
      by_cases hl : 0 < limit
      · rw [if_pos hl]
        exact (List.take_sublist _ _).trans hf
      · rw [if_neg hl]
        exact hf
    cases os with
    | none => exact hsub tasks (List.Sublist.refl _)
    | some s2 =>
      by_cases h2 : s2 = ""
      · simp only [selectTasks, if_pos h2]
        exact hsub tasks (List.Sublist.refl _)
      · simp only [selectTasks, if_neg h2]
        exact hsub _ (List.filter_sublist _)

/-- C7 (witness): the selection theorem at a concrete input — two tasks with
distinct slugs, filter `"x"`, limit 1. -/
theorem c7_selection_witness :
    (([sampleTask "x", sampleTask "y"]).map (fun t => t.slug)).Nodup
    ∧ ("x" : String) ≠ ""
    ∧ (([sampleTask "x", sampleTask "y"]).filter
        (fun t => t.slug = "x")).length ≤ 1 :=
  ⟨by decide, by decide,
    (c7_selection [sampleTask "x", sampleTask "y"] "x" 1
      (by decide) (by decide)).2.2.1⟩

/-- C8: the title `"Paracetamol (Panadol, Calpol) - Other brand names:
Hedex"` parses to name `"Paracetamol"` with brand list `["Hedex", "Panadol",
"Calpol"]` — as a set, `{Panadol, Calpol, Hedex}` — and the brand list
produced by `parseBrandNames` is deduplicated for every title. -/
theorem c8_brand_name_parsing :
    parseBrandNames "Paracetamol (Panadol, Calpol) - Other brand names: Hedex"
      = ("Paracetamol", ["Hedex", "Panadol", "Calpol"])
    ∧ (parseBrandNames
        "Paracetamol (Panadol, Calpol) - Other brand names: Hedex").2.Perm
      ["Panadol", "Calpol", "Hedex"]
    ∧ (∀ title : String, (parseBrandNames title).2.Nodup) := by
  refine ⟨by decide, by decide, parseBrandNames_nodup⟩

/-- C9: the document `[h2 "A", p "x", h2 "B", ul ["y", "z"]]` segments into
exactly the two sections for "A" and "B" with the corresponding paragraph and
bullet content in document order, and every section produced by
`extractSections` has non-empty heading text (empty-heading sections are
dropped). -/
theorem c9_heading_segmentation :
    extractSections [DomNode.heading "A", DomNode.para "x",
        DomNode.heading "B", DomNode.list ["y", "z"]]
      = [{ heading := "A", paragraphs := ["x"], bullets := [] },
         { heading := "B", paragraphs := [], bullets := ["y", "z"] }]
    ∧ ∀ doc : List DomNode,
        (extractSections doc).all (fun s => s.heading ≠ "") = true := by
  refine ⟨by decide, fun doc => ?_⟩
  rw [List.all_eq_true]
  intro s hs
  simpa using extractSections_headings_nonempty doc s hs

/-- C10: every processed task bumps `completed` exactly once; `succeeded` is
bumped as soon as extraction returns a record, before persistence, while
`failed` is bumped whenever the task body throws — so a task whose extraction
succeeds but whose persistence fails is counted in both `succeeded` and
`failed`, and for such a one-task run `succeeded + failed = 2 > 1 = total`. -/
theorem c10_counter_accounting (task : MedicineTask) (m : Medicine)
    (st : ScrapeState) (store : StoreState) (b : Bool) :
    processMedicineTask (some m) false task st store =
      ({ succeeded := st.succeeded + 1, completed := st.completed + 1,
         failed := st.failed + 1 }, store)
    ∧ processMedicineTask (some m) true task st store =
      ({ succeeded := st.succeeded + 1, completed := st.completed + 1,
         failed := st.failed }, persistMedicine task m store)
    ∧ processMedicineTask none b task st store =
      ({ succeeded := st.succeeded, completed := st.completed + 1,
         failed := st.failed + 1 }, store)
    ∧ (runPipeline [sampleTask "a"] none 0 true
        (fun _ => some (sampleMedicine "A" "a")) (fun _ => false)
        emptyStore).1 =
      { total := 1, succeeded := 1, failed := 1, skipped := 0,
        metadataPath := "data/metadata.json" }
    ∧ (runPipeline [sampleTask "a"] none 0 true
        (fun _ => some (sampleMedicine "A" "a")) (fun _ => false)
        emptyStore).1.succeeded +
      (runPipeline [sampleTask "a"] none 0 true
        (fun _ => some (sampleMedicine "A" "a")) (fun _ => false)
        emptyStore).1.failed >
      (runPipeline [sampleTask "a"] none 0 true
        (fun _ => some (sampleMedicine "A" "a")) (fun _ => false)
        emptyStore).1.total := by
  refine ⟨rfl, rfl, rfl, by decide, by decide⟩

end NHSScraper
